import Mathlib

/-!
Verification of the documentation-tree extraction and rendering pipeline of
`src/typer_docs.py` (the `typer-invoke` repository).

The Python module walks a `typer.Typer` dispatcher, extracts per-command and
per-group display metadata (`_extract_info`, `_extract_group_info`,
`extract_typer_info`) and renders the resulting tree of `_Node` values into
nested rich `Group`/`Padding`/`Text` objects (`build_typer_help`,
`_padding_level`, `clean_text`).

The embedding below mirrors that module:

* a `Descr` is the common shape of `typer.models.CommandInfo` and
  `typer.models.TyperInfo`: optional declared name, optional `short_help`,
  optional long `help`, optional callback (with its `__name__` and
  `__doc__`), and a `hidden` flag;
* Python truthiness of an optional string (`if info.short_help:`) is the
  `truthy` predicate: present and non-empty;
* `str.strip` is `pyStrip` (drop whitespace from both ends),
  `str.splitlines` is `pySplitlines` (empty list on the empty string),
  `str.ljust` is `pyLjust`, `str.replace` of a single character is a pointwise
  map, and `'``'`-to-backquote replacement is the left-to-right
  non-overlapping scan `cleanChars`;
* a `Typer` value carries its own info descriptor, its registered commands
  and its registered groups, where each registered group pairs the group's
  `TyperInfo` descriptor with the `typer_instance` it wraps;
* the mutable `_Node` tree is modelled twice: as the plain inductive `Node`
  (parent back-references dropped; they are never read by the renderer), and
  as an arena of `ANode` records indexed by allocation order (`buildA`),
  which makes the parent back-references explicit so that the strict-tree
  shape of the result can be stated and proved.
-/

/-- Python truthiness of an optional string: `None` and `''` are falsy. -/
def truthy : Option String → Bool
  | none => false
  | some s => !(s == "")

/-- Model of `str.strip()`: remove whitespace from both ends. -/
def pyStrip (s : String) : String :=
  ⟨((s.data.dropWhile Char.isWhitespace).reverse.dropWhile Char.isWhitespace).reverse⟩

/-- Split a character list at every newline. -/
def splitNl : List Char → List (List Char)
  | [] => [[]]
  | c :: rest =>
    match splitNl rest with
    | [] => [[]]
    | line :: lines => if c = '\n' then [] :: line :: lines else (c :: line) :: lines

/-- Model of `str.splitlines()` restricted to `\n` separators; like Python it
returns the empty list on the empty string and drops the segment after a
terminal newline. -/
def pySplitlines (s : String) : List String :=
  if s = "" then []
  else
    let parts := splitNl s.data
    let parts := if parts.getLast? = some [] then parts.dropLast else parts
    parts.map (fun l => ⟨l⟩)

/-- The two-line idiom `lines = s.strip().splitlines(); lines[0] if lines
else ''` used by `_extract_info` for both the long help and the callback
docstring. -/
def firstLineStripped (s : String) : String :=
  let lines := pySplitlines (pyStrip s)
  lines.headD ""

/-- Model of `str.replace('_', '-')`: a single-character pattern, so a
pointwise map over the characters. -/
def underscoreToHyphen (s : String) : String :=
  ⟨s.data.map (fun ch => if ch = '_' then '-' else ch)⟩

/-- The callback object attached to a command or group: its `__name__` and
optional `__doc__`. -/
structure Callback where
  name : String
  doc : Option String
deriving DecidableEq

/-- Common descriptor shape of `typer.models.CommandInfo` and
`typer.models.TyperInfo`: declared name, short help, long help, callback and
hidden flag. -/
structure Descr where
  name : Option String
  short_help : Option String
  help : Option String
  callback : Option Callback
  hidden : Bool
deriving DecidableEq

/-- The `_Info` dataclass: extracted display name and one-line help. -/
structure _Info where
  name : String
  help : String
deriving DecidableEq

/-- Translation of `_extract_info`: the help fallback chain
(`short_help` → first line of stripped `help` → first line of stripped
callback `__doc__` → `''`) and the name fallback chain
(declared name → callback `__name__` with `_` replaced by `-` → `''`). -/
def _extract_info (info : Descr) : _Info :=
  let help_ :=
    if truthy info.short_help then
      pyStrip (info.short_help.getD "")
    else if truthy info.help then
      firstLineStripped (info.help.getD "")
    else
      match info.callback with
      | some cb => if truthy cb.doc then firstLineStripped (cb.doc.getD "") else ""
      | none => ""
  let name :=
    if truthy info.name then
      info.name.getD ""
    else
      match info.callback with
      | some cb => underscoreToHyphen cb.name
      | none => ""
  ⟨name, help_⟩

/-- Translation of `_extract_command_info`. -/
def _extract_command_info (command : Descr) : _Info :=
  _extract_info command

/-- A `typer.Typer` object: its own `TyperInfo` descriptor, its
`registered_commands`, and its `registered_groups` (each a `TyperInfo`
descriptor paired with the `typer_instance` it wraps). -/
inductive Typer : Type where
  | mk : Descr → List Descr → List (Descr × Typer) → Typer

/-- The `info` attribute of a `Typer`. -/
def Typer.info : Typer → Descr
  | .mk i _ _ => i

/-- The `registered_commands` attribute of a `Typer`. -/
def Typer.registered_commands : Typer → List Descr
  | .mk _ cs _ => cs

/-- The `registered_groups` attribute of a `Typer`. -/
def Typer.registered_groups : Typer → List (Descr × Typer)
  | .mk _ _ gs => gs

/-- Translation of `_extract_group_info`: extract from the group's
`TyperInfo` descriptor; when the resulting help is empty and the group has a
`typer_instance`, borrow the help extracted from that instance's own `info`
object. -/
def _extract_group_info (group : Descr) (typer_instance : Option Typer) : _Info :=
  let group_info := _extract_info group
  if group_info.help = "" then
    match typer_instance with
    | some ti => { group_info with help := (_extract_info ti.info).help }
    | none => group_info
  else
    group_info

/-- The `_Node` tree with the parent back-reference dropped: extracted group
info, extracted infos of the visible commands, child subtrees. -/
inductive Node : Type where
  | mk : _Info → List _Info → List Node → Node

/-- The `info` field of a `Node`. -/
def Node.info : Node → _Info
  | .mk i _ _ => i

/-- The `commands_infos` field of a `Node`. -/
def Node.commands_infos : Node → List _Info
  | .mk _ cs _ => cs

/-- The `children` field of a `Node`. -/
def Node.children : Node → List Node
  | .mk _ _ ns => ns

mutual

/-- Translation of `extract_typer_info`: build a node from the precomputed
info (or the info extracted from the typer's own descriptor), the extracted
infos of the non-hidden registered commands, and the recursively built
subtrees of the non-hidden registered groups. -/
def extract_typer_info (typer_obj : Typer) (info : Option _Info) : Node :=
  match typer_obj with
  | .mk i cmds groups =>
    Node.mk (info.getD (_extract_info i))
      ((cmds.filter (fun c => !c.hidden)).map _extract_command_info)
      (extract_children groups)

/-- The `for group in typer_obj.registered_groups` loop of
`extract_typer_info`: skip hidden groups, otherwise extract the group info at
this level and recurse with it as the precomputed info. -/
def extract_children : List (Descr × Typer) → List Node
  | [] => []
  | g :: rest =>
    if g.1.hidden then extract_children rest
    else
      extract_typer_info g.2 (some (_extract_group_info g.1 (some g.2)))
        :: extract_children rest

end

/-- The backquote character, the building block of the `'``'` pattern that
`clean_text` collapses. -/
def backquote : Char := "`".front

/-- Model of `str.ljust(w)`: pad with spaces on the right up to width `w`;
strings already at least `w` long are returned unchanged (never truncated). -/
def pyLjust (s : String) (w : Nat) : String :=
  s ++ ⟨List.replicate (w - s.length) ' '⟩

/-- Python's left-to-right non-overlapping scan of
`str.replace('``', '`')`: on a double backquote emit one backquote and resume
after the match, otherwise keep the character. -/
def cleanChars : List Char → List Char
  | [] => []
  | [c] => [c]
  | c1 :: c2 :: rest =>
    if c1 = backquote ∧ c2 = backquote then backquote :: cleanChars rest
    else c1 :: cleanChars (c2 :: rest)

/-- Translation of `clean_text`: `text.replace('``', '`')`. -/
def clean_text (text : String) : String :=
  ⟨cleanChars text.data⟩

/-- Translation of `_padding_level`. -/
def _padding_level (level : Nat) : Nat :=
  level * 2

/-- A styled span of text: one `rich.text.Text` fragment with its style
string. -/
structure Span where
  text : String
  style : String
deriving DecidableEq

instance : Inhabited Span := ⟨⟨"", ""⟩⟩

/-- The four-tuple `(top, right, bottom, left)` passed to `rich.padding.Padding`. -/
structure Pad4 where
  top : Nat
  right : Nat
  bottom : Nat
  left : Nat
deriving DecidableEq

/-- One `Padding` object produced by `build_typer_help`: its styled text
spans and its padding four-tuple. -/
structure PaddingBlock where
  text : List Span
  pad : Pad4
deriving DecidableEq

instance : Inhabited PaddingBlock := ⟨⟨[], ⟨0, 0, 0, 0⟩⟩⟩

/-- A rich renderable as produced by `build_typer_help`: either a single
`Padding` block or a `rich.console.Group` of renderables. -/
inductive Renderable : Type where
  | padding : PaddingBlock → Renderable
  | group : List Renderable → Renderable

mutual

/-- Translation of `build_typer_help`: the node's own block (style switching
on `level == 0`, name `ljust`-ed to 20 columns, help passed through
`clean_text`) at padding `_padding_level level`, then one block per command
info (bold name, cleaned help) at padding `_padding_level (level + 1)`, then
the recursively rendered children, all wrapped in a `Group`. -/
def build_typer_help (node : Node) (level : Nat) : Renderable :=
  match node with
  | .mk node_info commands_infos children =>
    let style_name := if level = 0 then "bold yellow" else "bold cyan"
    let style_info := if level = 0 then "bold yellow" else "not bold cyan"
    let node_text : List Span :=
      [⟨pyLjust node_info.name 20, style_name⟩, ⟨clean_text node_info.help, style_info⟩]
    let node_padding : PaddingBlock := ⟨node_text, ⟨0, 0, 0, _padding_level level⟩⟩
    let command_paddings : List PaddingBlock :=
      commands_infos.map (fun command_info =>
        ⟨[⟨pyLjust command_info.name 20, "bold"⟩, ⟨clean_text command_info.help, "none"⟩],
          ⟨0, 0, 0, _padding_level (level + 1)⟩⟩)
    let children_paddings := build_children children level
    Renderable.group
      (Renderable.padding node_padding :: command_paddings.map Renderable.padding
        ++ children_paddings)

/-- The `for child in node.children` loop of `build_typer_help`: render each
child at `level + 1`. -/
def build_children : List Node → Nat → List Renderable
  | [], _ => []
  | child :: rest, level =>
    build_typer_help child (level + 1) :: build_children rest level

end

mutual

/-- Flatten a renderable into its ordered sequence of `Padding` blocks: the
order in which rich prints the blocks of a nested `Group`. -/
def blocks : Renderable → List PaddingBlock
  | .padding p => [p]
  | .group rs => blocksList rs

/-- Flatten a list of renderables in order. -/
def blocksList : List Renderable → List PaddingBlock
  | [] => []
  | r :: rest => blocks r ++ blocksList rest

end

/-!
Arena model of `extract_typer_info`. The Python `_Node` carries a live
`parent` back-reference (`None` for the root); to state the strict-tree shape
of the result, nodes are stored in an arena (a list indexed by allocation
order, which follows the source's construction order: a node is created
before its children are built) and the `parent` and `children` attributes
hold arena indices.
-/

/-- An arena node: the fields of `_Node` with object references replaced by
arena indices. -/
structure ANode where
  parent : Option Nat
  info : _Info
  commands_infos : List _Info
  children : List Nat
deriving DecidableEq

instance : Inhabited ANode := ⟨⟨none, ⟨"", ""⟩, [], []⟩⟩

/-- The node stored at index `k` of an arena. -/
def nodeAt (arena : List ANode) (k : Nat) : ANode :=
  arena.getD k default

mutual

/-- Arena version of `extract_typer_info`: allocate the node (its index is
the current arena length, its `parent` the caller's index), then build the
subtrees of the visible groups and record their root indices as the node's
`children`. Returns the extended arena and the new node's index. -/
def buildA (typer_obj : Typer) (parent : Option Nat) (info : Option _Info)
    (arena : List ANode) : List ANode × Nat :=
  match typer_obj with
  | .mk i cmds groups =>
    let id := arena.length
    let node0 : ANode :=
      ⟨parent, info.getD (_extract_info i),
        (cmds.filter (fun c => !c.hidden)).map _extract_command_info, []⟩
    let r := buildAList groups id (arena ++ [node0])
    (r.1.set id { node0 with children := r.2 }, id)

/-- The registered-groups loop of the arena builder: skip hidden groups,
build each visible group's subtree with the current node as parent, and
collect the child indices in order. -/
def buildAList (groups : List (Descr × Typer)) (id : Nat) (arena : List ANode) :
    List ANode × List Nat :=
  match groups with
  | [] => (arena, [])
  | g :: rest =>
    if g.1.hidden then buildAList rest id arena
    else
      let r1 := buildA g.2 (some id) (some (_extract_group_info g.1 (some g.2))) arena
      let r2 := buildAList rest id r1.1
      (r2.1, r1.2 :: r2.2)

end

/-- The whole-tree arena of a dispatcher: `extract_typer_info(typer_obj)`
with no parent and no precomputed info, starting from an empty arena. The
root lands at index `0`. -/
def typerArena (typer_obj : Typer) : List ANode :=
  (buildA typer_obj none none []).1

/-- The child-edge relation of an arena: `i` is a child of `j`. -/
def childRel (arena : List ANode) (j i : Nat) : Prop :=
  i ∈ (nodeAt arena j).children

/-!
Reference definitions written from the specification's words, to be compared
with the renderer: a flat pre-order block sequence, block counts and the
pre-order name sequence.
-/

mutual

/-- Pre-order block sequence as the specification words it: the node's own
block at indentation `2 * level`, then one block per command at indentation
`2 * (level + 1)`, then each child's full sequence at `level + 1`, in order. -/
def preorderBlocks (node : Node) (level : Nat) : List PaddingBlock :=
  match node with
  | .mk node_info commands_infos children =>
    ⟨[⟨pyLjust node_info.name 20, if level = 0 then "bold yellow" else "bold cyan"⟩,
        ⟨clean_text node_info.help, if level = 0 then "bold yellow" else "not bold cyan"⟩],
      ⟨0, 0, 0, 2 * level⟩⟩
      :: (commands_infos.map (fun command_info =>
            ⟨[⟨pyLjust command_info.name 20, "bold"⟩,
                ⟨clean_text command_info.help, "none"⟩],
              ⟨0, 0, 0, 2 * (level + 1)⟩⟩)
          ++ preorderBlocksList children (level + 1))

/-- Concatenated pre-order block sequences of a list of sibling nodes. -/
def preorderBlocksList : List Node → Nat → List PaddingBlock
  | [], _ => []
  | n :: rest, level => preorderBlocks n level ++ preorderBlocksList rest level

end

mutual

/-- Number of tree nodes in a `Node` subtree. -/
def numNodes : Node → Nat
  | .mk _ _ children => 1 + numNodesList children

/-- Number of tree nodes in a list of sibling subtrees. -/
def numNodesList : List Node → Nat
  | [] => 0
  | n :: rest => numNodes n + numNodesList rest

end

mutual

/-- Number of command infos in a `Node` subtree. -/
def numCommandInfos : Node → Nat
  | .mk _ commands_infos children => commands_infos.length + numCommandInfosList children

/-- Number of command infos in a list of sibling subtrees. -/
def numCommandInfosList : List Node → Nat
  | [] => 0
  | n :: rest => numCommandInfos n + numCommandInfosList rest

end

mutual

/-- Pre-order sequence of the raw (un-padded) names of a subtree: the node's
name, the names of its commands, then the names of each child subtree. -/
def preorderNames : Node → List String
  | .mk node_info commands_infos children =>
    node_info.name :: (commands_infos.map _Info.name ++ preorderNamesList children)

/-- Concatenated pre-order name sequences of sibling subtrees. -/
def preorderNamesList : List Node → List String
  | [] => []
  | n :: rest => preorderNames n ++ preorderNamesList rest

end

/-- The width of the name field of each block: the length of the text of the
block's first span (the span holding the `ljust`-ed name). -/
def nameWidths (ps : List PaddingBlock) : List Nat :=
  ps.map (fun p => (p.text.headD default).text.length)

/-- Whether a character list contains two adjacent backquotes. -/
def hasDoubleBackquote : List Char → Bool
  | [] => false
  | [_] => false
  | c1 :: c2 :: rest =>
    if c1 = backquote ∧ c2 = backquote then true else hasDoubleBackquote (c2 :: rest)

/-!
Concrete fixtures used by witnesses, counterexamples and the worked example
of the rendering claims.
-/

/-- The three-level example tree `root(cmdA) -> child1(cmdB) ->
grandchild(cmdC)`. -/
def exampleTree : Node :=
  .mk ⟨"root", "root help"⟩ [⟨"cmdA", "help A"⟩]
    [.mk ⟨"child1", "help 1"⟩ [⟨"cmdB", "help B"⟩]
      [.mk ⟨"grandchild", "help 2"⟩ [⟨"cmdC", "help C"⟩] []]]

/-- A node whose name is 21 characters long. -/
def longNameNode : Node :=
  .mk ⟨"abcdefghijklmnopqrstu", "some help"⟩ [] []

/-- A callback fixture with a two-line docstring. -/
def exampleCallback : Callback :=
  ⟨"my_command", some " first doc line \nsecond doc line"⟩

/-- A two-level dispatcher fixture: a root typer with one visible and one
hidden command, and one visible and one hidden subgroup; the visible subgroup
carries one command and no further subgroups. -/
def exampleTyper : Typer :=
  .mk ⟨some "app", some "App help", none, none, false⟩
    [⟨some "run", some "Run it", none, none, false⟩,
      ⟨some "secret", some "Hidden cmd", none, none, true⟩]
    [(⟨some "sub", none, none, none, false⟩,
        .mk ⟨some "sub", some "Sub help", none, none, false⟩
          [⟨some "go", some "Go", none, none, false⟩] []),
      (⟨some "ghost", none, none, none, true⟩,
        .mk ⟨some "ghost", some "Ghost help", none, none, false⟩ [] [])]

/-- Invariant of one `buildA` call. Writing `(A, id)` for the result:
`id` is the pre-call arena length; the arena strictly grows; the pre-call
prefix is untouched; the new root's parent is the supplied one; every other
new node's parent is an earlier new node; children indices point strictly
forward within the new region, are strictly sorted, and the parent field and
the children lists of the new region agree in both directions. -/
structure ArenaInv (out : List ANode × Nat) (arena : List ANode) (parent : Option Nat) : Prop where
  id_eq : out.2 = arena.length
  len_lt : arena.length < out.1.length
  old_pres : ∀ k, k < arena.length → nodeAt out.1 k = nodeAt arena k
  root_parent : (nodeAt out.1 out.2).parent = parent
  region_parent : ∀ k, arena.length ≤ k → k < out.1.length → k ≠ out.2 →
    ∃ q, (nodeAt out.1 k).parent = some q ∧ arena.length ≤ q ∧ q < k
  children_range : ∀ k, arena.length ≤ k → k < out.1.length →
    ∀ c ∈ (nodeAt out.1 k).children, k < c ∧ c < out.1.length
  children_sorted : ∀ k, arena.length ≤ k → k < out.1.length →
    (nodeAt out.1 k).children.Pairwise (· < ·)
  mem_parent : ∀ k, arena.length ≤ k → k < out.1.length →
    ∀ c ∈ (nodeAt out.1 k).children, (nodeAt out.1 c).parent = some k
  parent_mem : ∀ c, arena.length ≤ c → c < out.1.length → c ≠ out.2 →
    ∀ q, (nodeAt out.1 c).parent = some q → c ∈ (nodeAt out.1 q).children

/-- Invariant of one `buildAList` call. Writing `(A, cids)` for the result:
the arena grows; the pre-call prefix is untouched; the collected child
indices lie in the new region, are strictly sorted, and are exactly the new
nodes whose parent is `id`; all other new nodes point to earlier new nodes;
children lists of the new region are forward, sorted, and agree with the
parent fields in both directions. -/
structure ListInv (out : List ANode × List Nat) (arena : List ANode) (id : Nat) : Prop where
  len_le : arena.length ≤ out.1.length
  old_pres : ∀ k, k < arena.length → nodeAt out.1 k = nodeAt arena k
  cids_range : ∀ c ∈ out.2, arena.length ≤ c ∧ c < out.1.length
  cids_sorted : out.2.Pairwise (· < ·)
  cids_parent : ∀ c ∈ out.2, (nodeAt out.1 c).parent = some id
  parent_iff : ∀ c, arena.length ≤ c → c < out.1.length →
    ((nodeAt out.1 c).parent = some id ↔ c ∈ out.2)
  inner_parent : ∀ k, arena.length ≤ k → k < out.1.length → k ∉ out.2 →
    ∃ q, (nodeAt out.1 k).parent = some q ∧ arena.length ≤ q ∧ q < k
  children_range : ∀ k, arena.length ≤ k → k < out.1.length →
    ∀ c ∈ (nodeAt out.1 k).children, k < c ∧ c < out.1.length
  children_sorted : ∀ k, arena.length ≤ k → k < out.1.length →
    (nodeAt out.1 k).children.Pairwise (· < ·)
  mem_parent : ∀ k, arena.length ≤ k → k < out.1.length →
    ∀ c ∈ (nodeAt out.1 k).children, (nodeAt out.1 c).parent = some k
  parent_mem : ∀ c, arena.length ≤ c → c < out.1.length →
    ∀ q, (nodeAt out.1 c).parent = some q → q ≠ id → c ∈ (nodeAt out.1 q).children

/-!
Theorems. Helper lemmas come first; each claim has exactly one main theorem.
-/

/-- A recursive scan that meets no double backquote copies its input. -/
theorem cleanChars_of_no_db : ∀ l : List Char, hasDoubleBackquote l = false → cleanChars l = l
  | [], _ => rfl
  | [_], _ => rfl
  | c1 :: c2 :: rest, h => by
    by_cases hc : c1 = backquote ∧ c2 = backquote
    · simp only [hasDoubleBackquote, if_pos hc] at h
      exact Bool.noConfusion h
    · simp only [hasDoubleBackquote, if_neg hc] at h
      simp only [cleanChars, if_neg hc]
      rw [cleanChars_of_no_db (c2 :: rest) h]

/-- C1: the extracted help follows the strictly ordered fallback chain of
`_extract_info`: a truthy `short_help` wins and is stripped; otherwise a
truthy long `help` contributes the first line of its stripped block;
otherwise a callback with a truthy docstring contributes the first line of
its stripped docstring; otherwise the help is the empty string. -/
theorem help_fallback_chain (d : Descr) :
    (truthy d.short_help = true →
      (_extract_info d).help = pyStrip (d.short_help.getD ""))
    ∧ (truthy d.short_help = false → truthy d.help = true →
      (_extract_info d).help = firstLineStripped (d.help.getD ""))
    ∧ (truthy d.short_help = false → truthy d.help = false →
      ∀ cb, d.callback = some cb → truthy cb.doc = true →
        (_extract_info d).help = firstLineStripped (cb.doc.getD ""))
    ∧ (truthy d.short_help = false → truthy d.help = false →
      (∀ cb, d.callback = some cb → truthy cb.doc = false) →
        (_extract_info d).help = "") := by
  refine ⟨fun h1 => ?_, fun h1 h2 => ?_, fun h1 h2 cb hcb h3 => ?_, fun h1 h2 h3 => ?_⟩
  · simp only [_extract_info, h1, if_pos]
  · simp only [_extract_info, h1, h2, Bool.false_eq_true, if_false, if_pos]
  · simp only [_extract_info, h1, h2, hcb, h3, Bool.false_eq_true, if_false, if_pos]
  · simp only [_extract_info, h1, h2, Bool.false_eq_true, if_false]
    cases hcb : d.callback with
    | none => rfl
    | some cb => simp only [h3 cb hcb, Bool.false_eq_true, if_false]

/-- Witness for C1: each of the four branches of the chain at a concrete
descriptor. -/
theorem help_fallback_chain_witness :
    (_extract_info ⟨none, some " sh ", some "long\ndoc", some ⟨"f", some "cb doc"⟩, false⟩).help = "sh"
    ∧ (_extract_info ⟨none, none, some " long \nsecond", some ⟨"f", some "cb doc"⟩, false⟩).help = "long "
    ∧ (_extract_info ⟨none, none, none, some ⟨"f", some " cb doc\nmore"⟩, false⟩).help = "cb doc"
    ∧ (_extract_info ⟨none, none, none, some ⟨"f", none⟩, false⟩).help = "" := by
  refine ⟨?_, ?_, ?_, ?_⟩
  · exact ((help_fallback_chain _).1 (by decide)).trans (by decide)
  · exact ((help_fallback_chain _).2.1 (by decide) (by decide)).trans (by decide)
  · exact ((help_fallback_chain _).2.2.1 (by decide) (by decide) _ rfl (by decide)).trans (by decide)
  · exact (help_fallback_chain _).2.2.2 (by decide) (by decide) (fun cb hcb => by
      cases hcb; decide)

/-- C6: the extracted name follows the name fallback chain of
`_extract_info`: a truthy declared name wins verbatim; otherwise a present
callback contributes its `__name__` with every underscore replaced by a
hyphen; otherwise the name is the empty string. -/
theorem name_fallback_chain (d : Descr) :
    (truthy d.name = true → (_extract_info d).name = d.name.getD "")
    ∧ (truthy d.name = false → ∀ cb, d.callback = some cb →
      (_extract_info d).name = underscoreToHyphen cb.name
      ∧ (underscoreToHyphen cb.name).data
          = cb.name.data.map (fun ch => if ch = '_' then '-' else ch))
    ∧ (truthy d.name = false → d.callback = none → (_extract_info d).name = "") := by
  refine ⟨fun h1 => ?_, fun h1 cb hcb => ⟨?_, rfl⟩, fun h1 h2 => ?_⟩
  · simp only [_extract_info, h1, if_pos]
  · simp only [_extract_info, h1, hcb, Bool.false_eq_true, if_false]
  · simp only [_extract_info, h1, h2, Bool.false_eq_true, if_false]

/-- Witness for C6: all three branches at concrete descriptors. -/
theorem name_fallback_chain_witness :
    (_extract_info ⟨some "given", none, none, some ⟨"my_fn", none⟩, false⟩).name = "given"
    ∧ (_extract_info ⟨none, none, none, some ⟨"my_long_fn", none⟩, false⟩).name = "my-long-fn"
    ∧ (_extract_info ⟨none, none, none, none, false⟩).name = "" := by
  refine ⟨?_, ?_, ?_⟩
  · exact ((name_fallback_chain _).1 (by decide)).trans (by decide)
  · exact (((name_fallback_chain _).2.1 (by decide) _ rfl).1).trans (by decide)
  · exact (name_fallback_chain _).2.2 (by decide) rfl

/-- C9: a whitespace-only (but non-empty, hence truthy) long help yields the
empty extracted help and blocks the fall-through to the callback docstring,
whatever the callback and its docstring are. -/
theorem whitespace_help_blocks_fallthrough (d : Descr) (s : String)
    (h1 : truthy d.short_help = false) (h2 : d.help = some s) (h3 : s ≠ "")
    (h4 : ∀ c ∈ s.data, c.isWhitespace) :
    (_extract_info d).help = "" := by
  have h5 : s.data.dropWhile Char.isWhitespace = [] :=
    List.dropWhile_eq_nil_iff.mpr h4
  have hstrip : pyStrip s = "" := by
    unfold pyStrip
    rw [h5]
    rfl
  have htr : truthy d.help = true := by
    rw [h2]
    simpa [truthy] using h3
  simp only [_extract_info, h1, htr, Bool.false_eq_true, if_false, if_true, if_pos]
  rw [h2]
  simp only [Option.getD_some, firstLineStripped, hstrip]
  rfl

/-- Witness for C9: a two-character whitespace help together with a non-empty
callback docstring still extracts the empty help. -/
theorem whitespace_help_blocks_fallthrough_witness :
    (_extract_info ⟨none, none, some " \n ", some ⟨"f", some "real doc"⟩, false⟩).help = "" :=
  whitespace_help_blocks_fallthrough _ " \n " (by decide) rfl (by decide) (by decide)

/-- C5: `_extract_group_info` borrows the help of the group's own
`typer_instance.info` exactly when the ordinary chain produced the empty
help; a non-empty chain result is returned untouched, and the extraction
never writes anything back into the instance (it is a pure function of its
inputs). -/
theorem group_help_borrow (g : Descr) (ti : Typer) :
    ((_extract_info g).help ≠ "" → _extract_group_info g (some ti) = _extract_info g)
    ∧ ((_extract_info g).help = "" →
      (_extract_group_info g (some ti)).help = (_extract_info ti.info).help
      ∧ (_extract_group_info g (some ti)).name = (_extract_info g).name) := by
  constructor
  · intro h
    simp only [_extract_group_info, if_neg h]
  · intro h
    refine ⟨?_, ?_⟩ <;> simp only [_extract_group_info, if_pos h]

/-- Witness for C5: a group descriptor with no help of its own borrows the
instance help; one with a short help keeps it. -/
theorem group_help_borrow_witness :
    (_extract_group_info ⟨some "sub", none, none, none, false⟩
      (some (.mk ⟨some "sub", some "Sub help", none, none, false⟩ [] []))).help = "Sub help"
    ∧ _extract_group_info ⟨some "sub", some "Own", none, none, false⟩
      (some (.mk ⟨some "sub", some "Sub help", none, none, false⟩ [] []))
      = _extract_info ⟨some "sub", some "Own", none, none, false⟩ := by
  constructor
  · exact ((group_help_borrow _ _).2 (by decide)).1.trans (by decide)
  · exact (group_help_borrow _ _).1 (by decide)

/-- Counterexample to C3 as stated: sanitization is not idempotent — on
three consecutive backquotes one pass leaves a double backquote that a second
pass collapses again. -/
theorem clean_text_not_idempotent :
    clean_text (clean_text "```") ≠ clean_text "```"
    ∧ clean_text "```" = "``"
    ∧ clean_text (clean_text "```") = "`" := by
  refine ⟨by decide, by decide, by decide⟩

/-- C3 amended: sanitizing text with no double-backquote sequence is a no-op
(hence re-sanitizing is a no-op exactly when the first pass left no double
backquote), and sanitizing a string containing ```` ``word`` ```` yields
`` `word` `` with a single backquote on each side; full idempotence fails
(see the counterexample). -/
theorem clean_text_amended :
    (∀ s : String, hasDoubleBackquote s.data = false → clean_text s = s)
    ∧ (∀ s : String, hasDoubleBackquote (clean_text s).data = false →
      clean_text (clean_text s) = clean_text s)
    ∧ clean_text "a ``word`` b" = "a `word` b" := by
  have h1 : ∀ s : String, hasDoubleBackquote s.data = false → clean_text s = s := by
    intro s hs
    unfold clean_text
    rw [cleanChars_of_no_db s.data hs]
  exact ⟨h1, fun s hs => h1 (clean_text s) hs, by decide⟩

/-- Witness for C3's amended theorem: the no-op branch and the restricted
idempotence branch at concrete strings. -/
theorem clean_text_amended_witness :
    clean_text "plain `x` text" = "plain `x` text"
    ∧ clean_text (clean_text "a ``word`` b") = clean_text "a ``word`` b" := by
  constructor
  · exact clean_text_amended.1 "plain `x` text" (by decide)
  · exact clean_text_amended.2.1 "a ``word`` b" (by decide)

/-- Flattening of a cons unfolds to an append. -/
theorem blocksList_cons (r : Renderable) (rs : List Renderable) :
    blocksList (r :: rs) = blocks r ++ blocksList rs := rfl

/-- Flattening distributes over list concatenation. -/
theorem blocksList_append : ∀ l1 l2 : List Renderable,
    blocksList (l1 ++ l2) = blocksList l1 ++ blocksList l2
  | [], l2 => rfl
  | r :: rest, l2 => by
    show blocks r ++ blocksList (rest ++ l2) = blocks r ++ blocksList rest ++ blocksList l2
    rw [blocksList_append rest l2, List.append_assoc]

/-- Flattening a list of plain padding blocks returns them unchanged. -/
theorem blocksList_map_padding : ∀ ps : List PaddingBlock,
    blocksList (ps.map Renderable.padding) = ps
  | [] => rfl
  | p :: rest => by
    simp only [List.map_cons, blocksList, blocks, List.singleton_append,
      blocksList_map_padding rest]

mutual

/-- Flattening the nested `Group` structure of `build_typer_help` yields
exactly the pre-order block sequence. -/
theorem blocks_build_eq : ∀ (n : Node) (l : Nat),
    blocks (build_typer_help n l) = preorderBlocks n l
  | .mk node_info commands_infos children, l => by
    simp only [build_typer_help, preorderBlocks, blocks, blocksList_cons, blocksList_append,
      blocksList_map_padding, blocks_build_eq_list children l, _padding_level,
      List.singleton_append, List.cons_append, List.nil_append, Nat.mul_comm]

/-- List version of `blocks_build_eq`: children are rendered at `l + 1`. -/
theorem blocks_build_eq_list : ∀ (ns : List Node) (l : Nat),
    blocksList (build_children ns l) = preorderBlocksList ns (l + 1)
  | [], _ => rfl
  | n :: rest, l => by
    simp only [build_children, blocksList, preorderBlocksList]
    rw [blocks_build_eq n (l + 1), blocks_build_eq_list rest l]

end

/-- C2: rendering emits blocks in exact pre-order with indentation
`2 * level` for a node at depth `level` and `2 * (level + 1)` for its
commands: flattening the renderable of `build_typer_help` equals the
spec-side pre-order sequence for every tree and level, and on the worked
example `root(cmdA) -> child1(cmdB) -> grandchild(cmdC)` the block order is
`[root, cmdA, child1, cmdB, grandchild, cmdC]` with indentations
`[0, 2, 2, 4, 4, 6]`. -/
theorem preorder_rendering :
    (∀ (n : Node) (l : Nat), blocks (build_typer_help n l) = preorderBlocks n l)
    ∧ (blocks (build_typer_help exampleTree 0)).map (fun p => p.pad.left)
      = [0, 2, 2, 4, 4, 6]
    ∧ (blocks (build_typer_help exampleTree 0)).map (fun p => (p.text.headD default).text)
      = [pyLjust "root" 20, pyLjust "cmdA" 20, pyLjust "child1" 20,
          pyLjust "cmdB" 20, pyLjust "grandchild" 20, pyLjust "cmdC" 20] :=
  ⟨blocks_build_eq, by decide, by decide⟩

mutual

/-- Length of the pre-order block sequence of one subtree. -/
theorem preorderBlocks_length : ∀ (n : Node) (l : Nat),
    (preorderBlocks n l).length = numNodes n + numCommandInfos n
  | .mk node_info commands_infos children, l => by
    simp only [preorderBlocks, numNodes, numCommandInfos, List.length_cons,
      List.length_append, List.length_map]
    rw [preorderBlocksList_length children (l + 1)]
    omega

/-- Length of the pre-order block sequence of sibling subtrees. -/
theorem preorderBlocksList_length : ∀ (ns : List Node) (l : Nat),
    (preorderBlocksList ns l).length = numNodesList ns + numCommandInfosList ns
  | [], _ => rfl
  | n :: rest, l => by
    simp only [preorderBlocksList, numNodesList, numCommandInfosList, List.length_append]
    rw [preorderBlocks_length n l, preorderBlocksList_length rest l]
    omega

end

/-- C10: rendering produces exactly one block per tree node plus one block
per command info of every node of the subtree — no block is added or
dropped, whatever the starting level. -/
theorem block_count (n : Node) (l : Nat) :
    (blocks (build_typer_help n l)).length = numNodes n + numCommandInfos n := by
  rw [blocks_build_eq]
  exact preorderBlocks_length n l

/-- Length of a left-justified string: padded up to `w`, never truncated. -/
theorem pyLjust_length (s : String) (w : Nat) :
    (pyLjust s w).length = max w s.length := by
  show (s ++ String.mk (List.replicate (w - s.length) ' ')).length = max w s.length
  rw [String.length_append]
  show s.length + (List.replicate (w - s.length) ' ').length = max w s.length
  rw [List.length_replicate]
  omega

mutual

/-- Name-field widths of the pre-order sequence of one subtree. -/
theorem nameWidths_preorder : ∀ (n : Node) (l : Nat),
    nameWidths (preorderBlocks n l)
      = (preorderNames n).map (fun s => max 20 s.length)
  | .mk node_info commands_infos children, l => by
    simp only [preorderBlocks, preorderNames, nameWidths, List.map_cons, List.map_append,
      List.map_map, List.headD_cons]
    refine congrArg₂ List.cons (pyLjust_length node_info.name 20) (congrArg₂ (· ++ ·) ?_ ?_)
    · refine List.map_congr_left fun ci _ => ?_
      simp only [Function.comp]
      exact pyLjust_length ci.name 20
    · exact nameWidths_preorderList children (l + 1)

/-- Name-field widths of the pre-order sequences of sibling subtrees. -/
theorem nameWidths_preorderList : ∀ (ns : List Node) (l : Nat),
    nameWidths (preorderBlocksList ns l)
      = (preorderNamesList ns).map (fun s => max 20 s.length)
  | [], _ => rfl
  | n :: rest, l => by
    simp only [preorderBlocksList, preorderNamesList, nameWidths, List.map_append]
    rw [show List.map _ (preorderBlocks n l) = nameWidths (preorderBlocks n l) from rfl]
    rw [show List.map _ (preorderBlocksList rest l) = nameWidths (preorderBlocksList rest l) from rfl]
    rw [nameWidths_preorder n l, nameWidths_preorderList rest l]

end

/-- Counterexample to C7 as stated: `str.ljust(20)` pads but never
truncates, so a 21-character name produces a 21-column name field, not a
20-column one. -/
theorem fixed_width_counterexample :
    nameWidths (blocks (build_typer_help longNameNode 0)) = [21]
    ∧ nameWidths (blocks (build_typer_help longNameNode 0)) ≠ [20] :=
  ⟨by decide, by decide⟩

/-- C7 amended: in every rendered block the name field is `ljust`-ed to 20
columns — names shorter than 20 are padded to exactly 20, names of 20 or
more columns are left unchanged — so its width is `max 20 (length name)`;
no truncation occurs. -/
theorem name_field_width (n : Node) (l : Nat) :
    nameWidths (blocks (build_typer_help n l))
      = (preorderNames n).map (fun s => max 20 s.length) := by
  rw [blocks_build_eq]
  exact nameWidths_preorder n l

/-- The group loop distributes over list concatenation. -/
theorem extract_children_append : ∀ a b : List (Descr × Typer),
    extract_children (a ++ b) = extract_children a ++ extract_children b
  | [], b => rfl
  | g :: rest, b => by
    by_cases hg : g.1.hidden
    · simp only [List.cons_append, extract_children, hg, if_true]
      exact extract_children_append rest b
    · simp only [List.cons_append, extract_children, hg, Bool.false_eq_true, if_false]
      exact congrArg (List.cons _) (extract_children_append rest b)

/-- The group loop is the map of the recursive extraction over the visible
groups, in declaration order. -/
theorem extract_children_eq_filter_map : ∀ gs : List (Descr × Typer),
    extract_children gs
      = (gs.filter (fun g => !g.1.hidden)).map
          (fun g => extract_typer_info g.2 (some (_extract_group_info g.1 (some g.2))))
  | [] => rfl
  | g :: rest => by
    by_cases hg : g.1.hidden
    · simp only [extract_children, hg, if_true, List.filter_cons, Bool.not_true,
        Bool.false_eq_true, if_false, extract_children_eq_filter_map rest]
    · simp only [extract_children, hg, Bool.false_eq_true, if_false, List.filter_cons,
        Bool.not_false, if_true, List.map_cons, extract_children_eq_filter_map rest]

/-- C4: a hidden command or hidden subgroup never contributes to the built
tree — removing it from anywhere among its siblings leaves the extraction
unchanged — and the visible commands and subgroups are kept in declaration
order (the node's lists are the order-preserving maps over the visible
entries). -/
theorem hidden_never_in_tree (i c gd : Descr) (tg : Typer)
    (cmds1 cmds2 : List Descr) (gs1 gs2 : List (Descr × Typer)) (info : Option _Info)
    (hc : c.hidden = true) (hg : gd.hidden = true) :
    extract_typer_info (.mk i (cmds1 ++ c :: cmds2) (gs1 ++ (gd, tg) :: gs2)) info
      = extract_typer_info (.mk i (cmds1 ++ cmds2) (gs1 ++ gs2)) info
    ∧ (∀ (cmds : List Descr) (gs : List (Descr × Typer)),
      (extract_typer_info (.mk i cmds gs) info).commands_infos
          = (cmds.filter (fun d => !d.hidden)).map _extract_command_info
      ∧ (extract_typer_info (.mk i cmds gs) info).children
          = (gs.filter (fun g => !g.1.hidden)).map
              (fun g => extract_typer_info g.2 (some (_extract_group_info g.1 (some g.2))))) := by
  constructor
  · simp only [extract_typer_info]
    refine congrArg₂ (Node.mk _) ?_ ?_
    · simp only [List.filter_append, List.filter_cons, hc, Bool.not_true,
        Bool.false_eq_true, if_false]
    · rw [extract_children_append, extract_children_append]
      simp only [extract_children, hg, if_true]
  · intro cmds gs
    exact ⟨rfl, extract_children_eq_filter_map gs⟩

/-- Witness for C4: dropping the hidden command and the hidden subgroup of
the two-level fixture changes nothing. -/
theorem hidden_never_in_tree_witness :
    extract_typer_info
        (.mk ⟨some "app", some "App help", none, none, false⟩
          ([⟨some "run", some "Run it", none, none, false⟩]
            ++ ⟨some "secret", some "Hidden cmd", none, none, true⟩ :: [])
          ([(⟨some "sub", none, none, none, false⟩,
              .mk ⟨some "sub", some "Sub help", none, none, false⟩ [] [])]
            ++ (⟨some "ghost", none, none, none, true⟩,
                .mk ⟨some "ghost", some "Ghost help", none, none, false⟩ [] []) :: [])) none
      = extract_typer_info
        (.mk ⟨some "app", some "App help", none, none, false⟩
          ([⟨some "run", some "Run it", none, none, false⟩] ++ [])
          ([(⟨some "sub", none, none, none, false⟩,
              .mk ⟨some "sub", some "Sub help", none, none, false⟩ [] [])] ++ [])) none :=
  (hidden_never_in_tree _ _ _ _ _ _ _ _ _ rfl rfl).1

/-- Reading inside the left part of an append. -/
theorem nodeAt_append_left : ∀ (A B : List ANode) (k : Nat), k < A.length →
    nodeAt (A ++ B) k = nodeAt A k
  | [], _, k, h => absurd h (Nat.not_lt_zero k)
  | _ :: _, _, 0, _ => rfl
  | _ :: A, B, k + 1, h => nodeAt_append_left A B k (Nat.lt_of_succ_lt_succ h)

/-- Reading the just-appended element. -/
theorem nodeAt_append_self : ∀ (A : List ANode) (x : ANode),
    nodeAt (A ++ [x]) A.length = x
  | [], _ => rfl
  | _ :: A, x => nodeAt_append_self A x

/-- Reading the just-written index. -/
theorem nodeAt_set_self : ∀ (A : List ANode) (k : Nat) (x : ANode), k < A.length →
    nodeAt (A.set k x) k = x
  | [], k, _, h => absurd h (Nat.not_lt_zero k)
  | _ :: _, 0, _, _ => rfl
  | _ :: A, k + 1, x, h => nodeAt_set_self A k x (Nat.lt_of_succ_lt_succ h)

/-- Writing one index leaves every other index unchanged. -/
theorem nodeAt_set_ne : ∀ (A : List ANode) (j k : Nat) (x : ANode), j ≠ k →
    nodeAt (A.set j x) k = nodeAt A k
  | [], _, _, _, _ => rfl
  | _ :: _, 0, 0, _, h => absurd rfl h
  | _ :: _, 0, _ + 1, _, _ => rfl
  | _ :: _, _ + 1, 0, _, _ => rfl
  | _ :: A, j + 1, k + 1, x, h =>
    nodeAt_set_ne A j k x (fun e => h (congrArg Nat.succ e))

/-- Reading past the end yields the default node. -/
theorem nodeAt_default : ∀ (A : List ANode) (k : Nat), A.length ≤ k →
    nodeAt A k = default
  | [], _, _ => rfl
  | a :: A, 0, h => absurd h (by simp)
  | _ :: A, k + 1, h => nodeAt_default A k (Nat.le_of_succ_le_succ h)

/-- The empty group list leaves the arena unchanged and collects nothing. -/
theorem buildAList_inv_nil (arena : List ANode) (id : Nat) :
    ListInv (arena, []) arena id := by
  refine ⟨le_refl _, fun _ _ => rfl, ?_, List.Pairwise.nil, ?_, ?_, ?_, ?_, ?_, ?_, ?_⟩
  · exact fun c hc => absurd hc (List.not_mem_nil c)
  · exact fun c hc => absurd hc (List.not_mem_nil c)
  · exact fun c h1 h2 => absurd (Nat.lt_of_le_of_lt h1 h2) (Nat.lt_irrefl _)
  · exact fun k h1 h2 _ => absurd (Nat.lt_of_le_of_lt h1 h2) (Nat.lt_irrefl _)
  · exact fun k h1 h2 => absurd (Nat.lt_of_le_of_lt h1 h2) (Nat.lt_irrefl _)
  · exact fun k h1 h2 => absurd (Nat.lt_of_le_of_lt h1 h2) (Nat.lt_irrefl _)
  · exact fun k h1 h2 => absurd (Nat.lt_of_le_of_lt h1 h2) (Nat.lt_irrefl _)
  · exact fun c h1 h2 => absurd (Nat.lt_of_le_of_lt h1 h2) (Nat.lt_irrefl _)

/-- Assembling one node: writing the collected child indices into the
freshly allocated slot turns the loop invariant into the call invariant. -/
theorem buildA_inv_step (p : Option Nat) (arena : List ANode) (node0 : ANode)
    (hpar : node0.parent = p) (r : List ANode × List Nat)
    (hr : ListInv r (arena ++ [node0]) arena.length) :
    ArenaInv (r.1.set arena.length { node0 with children := r.2 }, arena.length) arena p := by
  have hlen1 : (arena ++ [node0]).length = arena.length + 1 := by simp
  have hlenr : arena.length + 1 ≤ r.1.length := by
    have h := hr.len_le
    rw [hlen1] at h
    exact h
  have hidlt : arena.length < r.1.length := by omega
  have hsetlen : (r.1.set arena.length { node0 with children := r.2 }).length = r.1.length := by
    simp
  have hAid : nodeAt (r.1.set arena.length { node0 with children := r.2 }) arena.length
      = { node0 with children := r.2 } := nodeAt_set_self _ _ _ hidlt
  have hAne : ∀ k, k ≠ arena.length →
      nodeAt (r.1.set arena.length { node0 with children := r.2 }) k = nodeAt r.1 k :=
    fun k hk => nodeAt_set_ne _ _ _ _ (fun e => hk e.symm)
  refine ⟨rfl, ?_, ?_, ?_, ?_, ?_, ?_, ?_, ?_⟩
  · show arena.length < (r.1.set arena.length { node0 with children := r.2 }).length
    rw [hsetlen]
    exact hidlt
  · intro k hk
    rw [hAne k (Nat.ne_of_lt hk), hr.old_pres k (by rw [hlen1]; omega),
      nodeAt_append_left arena [node0] k hk]
  · show (nodeAt (r.1.set arena.length { node0 with children := r.2 }) arena.length).parent = p
    rw [hAid]
    exact hpar
  · intro k hk1 hk2 hk3
    rw [hsetlen] at hk2
    rw [hAne k hk3]
    by_cases hin : k ∈ r.2
    · exact ⟨arena.length, hr.cids_parent k hin, le_refl _, by omega⟩
    · obtain ⟨q, hq, hq1, hq2⟩ := hr.inner_parent k (by rw [hlen1]; omega) hk2 hin
      rw [hlen1] at hq1
      exact ⟨q, hq, by omega, hq2⟩
  · intro k hk1 hk2 c hc
    rw [hsetlen] at hk2
    by_cases hk : k = arena.length
    · subst hk
      rw [hAid] at hc
      have hc' : c ∈ r.2 := hc
      obtain ⟨h1, h2⟩ := hr.cids_range c hc'
      rw [hlen1] at h1
      exact ⟨by omega, by rw [hsetlen]; omega⟩
    · rw [hAne k hk] at hc
      obtain ⟨h1, h2⟩ := hr.children_range k (by rw [hlen1]; omega) hk2 c hc
      exact ⟨h1, by rw [hsetlen]; omega⟩
  · intro k hk1 hk2
    rw [hsetlen] at hk2
    by_cases hk : k = arena.length
    · subst hk
      rw [hAid]
      exact hr.cids_sorted
    · rw [hAne k hk]
      exact hr.children_sorted k (by rw [hlen1]; omega) hk2
  · intro k hk1 hk2 c hc
    rw [hsetlen] at hk2
    by_cases hk : k = arena.length
    · subst hk
      rw [hAid] at hc
      have hc' : c ∈ r.2 := hc
      obtain ⟨h1, _⟩ := hr.cids_range c hc'
      rw [hlen1] at h1
      rw [hAne c (by omega)]
      exact hr.cids_parent c hc'
    · rw [hAne k hk] at hc
      obtain ⟨hkc, hcl⟩ := hr.children_range k (by rw [hlen1]; omega) hk2 c hc
      rw [hAne c (by omega)]
      exact hr.mem_parent k (by rw [hlen1]; omega) hk2 c hc
  · intro c hc1 hc2 hc3 q hq
    rw [hsetlen] at hc2
    rw [hAne c hc3] at hq
    by_cases hqid : q = arena.length
    · subst hqid
      have hmem : c ∈ r.2 := (hr.parent_iff c (by rw [hlen1]; omega) hc2).mp hq
      rw [hAid]
      exact hmem
    · rw [hAne q hqid]
      exact hr.parent_mem c (by rw [hlen1]; omega) hc2 q hq hqid

/-- Extending the loop invariant: one visible subtree, then the rest of the
groups. -/
theorem buildAList_inv_step (id : Nat) (arena : List ANode) (hid : id < arena.length)
    (r1 : List ANode × Nat) (h1 : ArenaInv r1 arena (some id))
    (r2 : List ANode × List Nat) (h2 : ListInv r2 r1.1 id) :
    ListInv (r2.1, r1.2 :: r2.2) arena id := by
  have hr12 : r1.2 = arena.length := h1.id_eq
  have hlen1 : arena.length < r1.1.length := h1.len_lt
  have hlen2 : r1.1.length ≤ r2.1.length := h2.len_le
  have hpl : ((r2.1, r1.2 :: r2.2) : List ANode × List Nat).1.length = r2.1.length := rfl
  refine ⟨by omega, ?_, ?_, ?_, ?_, ?_, ?_, ?_, ?_, ?_, ?_⟩
  · intro k hk
    rw [h2.old_pres k (by omega), h1.old_pres k hk]
  · intro c hc
    rcases List.mem_cons.mp hc with he | hm
    · subst he
      exact ⟨by omega, by omega⟩
    · obtain ⟨ha, hb⟩ := h2.cids_range c hm
      exact ⟨by omega, hb⟩
  · refine List.Pairwise.cons ?_ h2.cids_sorted
    intro c hc
    have := (h2.cids_range c hc).1
    omega
  · intro c hc
    rcases List.mem_cons.mp hc with he | hm
    · subst he
      rw [h2.old_pres r1.2 (by omega)]
      exact h1.root_parent
    · exact h2.cids_parent c hm
  · intro c hc1 hc2
    by_cases hlt : c < r1.1.length
    · rw [h2.old_pres c hlt]
      by_cases hcr : c = r1.2
      · subst hcr
        constructor
        · intro _
          exact List.mem_cons_self _ _
        · intro _
          exact h1.root_parent
      · obtain ⟨q, hq, hq1, hq2⟩ := h1.region_parent c hc1 hlt hcr
        rw [hq]
        constructor
        · intro he
          have hqe : q = id := Option.some.inj he
          omega
        · intro hm
          rcases List.mem_cons.mp hm with he | hm2
          · exact absurd he hcr
          · have := (h2.cids_range c hm2).1
            omega
    · have hge : r1.1.length ≤ c := Nat.le_of_not_lt hlt
      rw [h2.parent_iff c hge hc2]
      constructor
      · exact fun h => List.mem_cons_of_mem _ h
      · intro hm
        rcases List.mem_cons.mp hm with he | hm2
        · exfalso
          omega
        · exact hm2
  · intro k hk1 hk2 hknot
    by_cases hlt : k < r1.1.length
    · have hkr : k ≠ r1.2 := fun e => hknot (by rw [e]; exact List.mem_cons_self _ _)
      obtain ⟨q, hq, hq1, hq2⟩ := h1.region_parent k hk1 hlt hkr
      refine ⟨q, ?_, hq1, hq2⟩
      rw [h2.old_pres k hlt]
      exact hq
    · have hge : r1.1.length ≤ k := Nat.le_of_not_lt hlt
      have hknot2 : k ∉ r2.2 := fun hm => hknot (List.mem_cons_of_mem _ hm)
      obtain ⟨q, hq, hq1, hq2⟩ := h2.inner_parent k hge hk2 hknot2
      exact ⟨q, hq, by omega, hq2⟩
  · intro k hk1 hk2 c hc
    by_cases hlt : k < r1.1.length
    · rw [h2.old_pres k hlt] at hc
      obtain ⟨ha, hb⟩ := h1.children_range k hk1 hlt c hc
      exact ⟨ha, by omega⟩
    · exact h2.children_range k (Nat.le_of_not_lt hlt) hk2 c hc
  · intro k hk1 hk2
    by_cases hlt : k < r1.1.length
    · rw [h2.old_pres k hlt]
      exact h1.children_sorted k hk1 hlt
    · exact h2.children_sorted k (Nat.le_of_not_lt hlt) hk2
  · intro k hk1 hk2 c hc
    by_cases hlt : k < r1.1.length
    · rw [h2.old_pres k hlt] at hc
      obtain ⟨hkc, hcl⟩ := h1.children_range k hk1 hlt c hc
      rw [h2.old_pres c hcl]
      exact h1.mem_parent k hk1 hlt c hc
    · exact h2.mem_parent k (Nat.le_of_not_lt hlt) hk2 c hc
  · intro c hc1 hc2 q hq hqid
    by_cases hlt : c < r1.1.length
    · rw [h2.old_pres c hlt] at hq
      by_cases hcr : c = r1.2
      · subst hcr
        rw [h1.root_parent] at hq
        exact absurd (Option.some.inj hq).symm hqid
      · obtain ⟨q', hq', hq1, hq2⟩ := h1.region_parent c hc1 hlt hcr
        rw [hq] at hq'
        have hqq : q = q' := Option.some.inj hq'
        subst hqq
        have hmem := h1.parent_mem c hc1 hlt hcr q hq
        rw [h2.old_pres q (by omega)]
        exact hmem
    · exact h2.parent_mem c (Nat.le_of_not_lt hlt) hc2 q hq hqid

mutual

/-- Every `buildA` call satisfies the arena invariant. -/
theorem buildA_inv : ∀ (t : Typer) (p : Option Nat) (info : Option _Info) (arena : List ANode),
    ArenaInv (buildA t p info arena) arena p
  | .mk i cmds groups, p, info, arena => by
    simp only [buildA]
    exact buildA_inv_step p arena _ rfl _
      (buildAList_inv groups arena.length (arena ++ [_]) (by simp))

/-- Every `buildAList` call with an already-allocated parent index satisfies
the loop invariant. -/
theorem buildAList_inv : ∀ (gs : List (Descr × Typer)) (id : Nat) (arena : List ANode),
    id < arena.length → ListInv (buildAList gs id arena) arena id
  | [], id, arena, _ => buildAList_inv_nil arena id
  | (gd, tg) :: rest, id, arena, hid => by
    by_cases hg : gd.hidden
    · simp only [buildAList, hg, if_true]
      exact buildAList_inv rest id arena hid
    · simp only [buildAList, hg, Bool.false_eq_true, if_false]
      exact buildAList_inv_step id arena hid _
        (buildA_inv tg (some id) (some (_extract_group_info gd (some tg))) arena) _
        (buildAList_inv rest id
          (buildA tg (some id) (some (_extract_group_info gd (some tg))) arena).1
          (Nat.lt_trans hid
            (buildA_inv tg (some id) (some (_extract_group_info gd (some tg))) arena).len_lt))

end

/-- C8: the arena built by the tree builder is a strict tree: the root's
parent reference is absent; every non-root node's parent is exactly the
(unique) node in whose children list it appears; children lists are
duplicate-free and point strictly forward in allocation order; and no node
is reachable from itself through children links. -/
theorem strict_tree (t : Typer) :
    ((nodeAt (typerArena t) 0).parent = none)
    ∧ (∀ c, 0 < c → c < (typerArena t).length →
      ∃ j, (nodeAt (typerArena t) c).parent = some j
        ∧ c ∈ (nodeAt (typerArena t) j).children
        ∧ ∀ j2, c ∈ (nodeAt (typerArena t) j2).children → j2 = j)
    ∧ (∀ j, (nodeAt (typerArena t) j).children.Nodup)
    ∧ (∀ j c, c ∈ (nodeAt (typerArena t) j).children → j < c ∧ c < (typerArena t).length)
    ∧ (∀ i, ¬ Relation.TransGen (childRel (typerArena t)) i i) := by
  have h := buildA_inv t none none []
  have hid : (buildA t none none []).2 = 0 := h.id_eq
  have harena : typerArena t = (buildA t none none []).1 := rfl
  have hchild : ∀ j c, c ∈ (nodeAt (typerArena t) j).children →
      j < c ∧ c < (typerArena t).length := by
    intro j c hc
    by_cases hj : j < (typerArena t).length
    · exact h.children_range j (Nat.zero_le j) hj c hc
    · rw [nodeAt_default _ j (Nat.le_of_not_lt hj)] at hc
      exact absurd hc (List.not_mem_nil c)
  have huniq : ∀ c j2, c ∈ (nodeAt (typerArena t) j2).children →
      (nodeAt (typerArena t) c).parent = some j2 := by
    intro c j2 hc
    by_cases hj : j2 < (typerArena t).length
    · exact h.mem_parent j2 (Nat.zero_le j2) hj c hc
    · rw [nodeAt_default _ j2 (Nat.le_of_not_lt hj)] at hc
      exact absurd hc (List.not_mem_nil c)
  refine ⟨?_, ?_, ?_, hchild, ?_⟩
  · have hroot := h.root_parent
    rw [hid] at hroot
    exact hroot
  · intro c hc1 hc2
    have hcne : c ≠ (buildA t none none []).2 := by omega
    obtain ⟨q, hq, _, _⟩ := h.region_parent c (Nat.zero_le c) hc2 hcne
    refine ⟨q, hq, h.parent_mem c (Nat.zero_le c) hc2 hcne q hq, ?_⟩
    intro j2 hj2
    have hp := huniq c j2 hj2
    rw [harena, hq] at hp
    exact Option.some.inj hp.symm
  · intro j
    by_cases hj : j < (typerArena t).length
    · exact (h.children_sorted j (Nat.zero_le j) hj).imp Nat.ne_of_lt
    · rw [nodeAt_default _ j (Nat.le_of_not_lt hj)]
      exact List.nodup_nil
  · have hstep : ∀ a b, childRel (typerArena t) a b → a < b :=
      fun a b hab => (hchild a b hab).1
    have hmono : ∀ a b, Relation.TransGen (childRel (typerArena t)) a b → a < b := by
      intro a b hab
      induction hab with
      | single hcb => exact hstep _ _ hcb
      | tail _ hcb ih => exact Nat.lt_trans ih (hstep _ _ hcb)
    exact fun i hi => absurd (hmono i i hi) (Nat.lt_irrefl i)

/-- Witness for C8: the two-level fixture's arena has the root parent absent
and node 1 a child of a unique parent. -/
theorem strict_tree_witness :
    (nodeAt (typerArena exampleTyper) 0).parent = none
    ∧ ∃ j, (nodeAt (typerArena exampleTyper) 1).parent = some j
      ∧ 1 ∈ (nodeAt (typerArena exampleTyper) j).children := by
  refine ⟨(strict_tree exampleTyper).1, ?_⟩
  obtain ⟨j, h1, h2, _⟩ := (strict_tree exampleTyper).2.1 1 (by decide) (by decide)
  exact ⟨j, h1, h2⟩
